import Mathlib

/-!
Verification development for the validation-report reader
(`rcsb/utils/validation/ValidationReportReader.py`).

The pipeline is shallowly embedded: XML element trees become explicit
three-level structures, Python dicts become insertion-ordered association
lists, exceptions (`KeyError`) become `Except.error`, and the implicit
`return None` paths become `Option`.  The schema map, attribute-order table
and provenance decode table (loaded externally by
`ValidationReportSchemaUtils`) are parameters of the embedded functions.

Python dict semantics modelled here: assignment `d[k] = v` replaces the
value in place when the key exists (keeping its position) and appends the
pair otherwise; iteration follows insertion order.
-/

set_option maxRecDepth 4000

/-- A value stored in an extracted row: XML attribute values are strings,
while the injected ordinal (`rowD['ordinal'] = ii`) is an integer. -/
inductive Val where
  | str (s : String)
  | nat (n : Nat)
deriving DecidableEq, Repr

/-- One extracted row: an insertion-ordered string-keyed mapping,
as produced from an element's `attrib` dict. -/
abbrev Row := List (String × Val)

/-- Python `d[k]` / `k in d`: first binding of key `k`, if any. -/
def dlookup {α : Type} : List (String × α) → String → Option α
  | [], _ => none
  | p :: ps, k => if p.1 = k then some p.2 else dlookup ps k

/-- Python `d[k] = v`: replace in place if the key exists (keeping its
position), otherwise append the new pair at the end. -/
def dinsert {α : Type} : List (String × α) → String → α → List (String × α)
  | [], k, v => [(k, v)]
  | p :: ps, k, v => if p.1 = k then (k, v) :: ps else p :: dinsert ps k v

/-- Lookup keyed by a `(category, attribute)` pair, for the schema map's
`attributes` table (`atD[(catName, atName)]`). -/
def dlookupP : List ((String × String) × String) → (String × String) → Option String
  | [], _ => none
  | p :: ps, k => if p.1 = k then some p.2 else dlookupP ps k

/-- The keys of a row, in order (`rowD.keys()`). -/
def rowKeys (r : Row) : List String := r.map (fun p => p.1)

/-- Python `str()` applied to a row value. -/
def pyStr : Val → String
  | Val.str s => s
  | Val.nat n => Nat.repr n

/-- Drop leading whitespace characters from a character list. -/
def dropWS : List Char → List Char
  | [] => []
  | c :: cs => if c.isWhitespace then dropWS cs else c :: cs

/-- Python `str.strip()`: remove leading and trailing whitespace. -/
def pyStrip (s : String) : String :=
  ⟨(dropWS (dropWS s.toList).reverse).reverse⟩

/-- Helper for `splitComma`, accumulating the current token reversed. -/
def splitCommaAux : List Char → List Char → List String
  | [], acc => [⟨acc.reverse⟩]
  | c :: cs, acc => if c = ',' then ⟨acc.reverse⟩ :: splitCommaAux cs [] else splitCommaAux cs (c :: acc)

/-- Python `s.split(',')` (note `"".split(',') == ['']`). -/
def splitComma (s : String) : List String := splitCommaAux s.toList []

/-- Python comma-joining of a token list. -/
def joinComma : List String → String
  | [] => ""
  | [s] => s
  | s :: ss => s ++ "," ++ joinComma ss

/-- Decidable equality for `Except`, so that concrete runs of the
embedded pipeline can be checked by `decide`. -/
def exceptDecEq {ε α : Type} [DecidableEq ε] [DecidableEq α] :
    DecidableEq (Except ε α) := fun x y =>
  match x, y with
  | Except.error e, Except.error f =>
    if h : e = f then isTrue (by rw [h]) else isFalse (by intro hc; cases hc; exact h rfl)
  | Except.ok a, Except.ok b =>
    if h : a = b then isTrue (by rw [h]) else isFalse (by intro hc; cases hc; exact h rfl)
  | Except.error _, Except.ok _ => isFalse (by intro hc; cases hc)
  | Except.ok _, Except.error _ => isFalse (by intro hc; cases hc)

instance {ε α : Type} [DecidableEq ε] [DecidableEq α] : DecidableEq (Except ε α) :=
  exceptDecEq

/-- `List.map` carrying the element index, starting at `n`
(used for `enumerate`-style traversals). -/
def idxMap {α β : Type} (f : Nat → α → β) : Nat → List α → List β
  | _, [] => []
  | n, a :: as => f n a :: idxMap f (n + 1) as

/-! ### The schema tables (external `ValidationReportSchemaUtils` data) -/

/-- The schema map loaded by `fetchSchemaMap`: `categories` maps a source
category name to its canonical name, `attributes` maps a
`(source category, source attribute)` pair to the canonical attribute name
(the `['at']` field of the table entry). -/
structure SchemaMap where
  categories : List (String × String)
  attributes : List ((String × String) × String)
deriving DecidableEq, Repr

/-- Category rename with identity fallback
(`self.__schemaMap['categories'][catName] if catName in ... else catName`). -/
def mapCatName (sm : SchemaMap) (c : String) : String :=
  match dlookup sm.categories c with
  | some v => v
  | none => c

/-- Attribute rename keyed by the (original) category name with identity
fallback (`atD[(catName, atName)]['at'] if (catName, atName) in atD else atName`). -/
def mapAtName (sm : SchemaMap) (c a : String) : String :=
  match dlookupP sm.attributes (c, a) with
  | some v => v
  | none => a

/-- Provenance token decode with identity fallback
(`self.__atMap[ky] if ky in self.__atMap else ky`). -/
def decodeTok (atMap : List (String × String)) (k : String) : String :=
  match dlookup atMap k with
  | some v => v
  | none => k

/-! ### The XML tree (output of the external `DocumentParser`)

`__extract` walks exactly three levels below the root, so the tree is
embedded with that fixed depth; deeper nesting is not traversed by the
code and is omitted. -/

/-- A grandchild element: tag and attribute dict. -/
structure XmlNode3 where
  tag : String
  attrib : Row
deriving DecidableEq, Repr

/-- A child element. -/
structure XmlNode2 where
  tag : String
  attrib : Row
  children : List XmlNode3
deriving DecidableEq, Repr

/-- A top-level element. -/
structure XmlNode1 where
  tag : String
  attrib : Row
  children : List XmlNode2
deriving DecidableEq, Repr

/-- The parsed document: the root's list of top-level elements. -/
structure XmlTree where
  elements : List XmlNode1
deriving DecidableEq, Repr

/-- Position of a node in the tree, used to record which extracted rows
alias which tree `attrib` dicts (top-level and grandchild rows are the
tree's own dicts; child rows are fresh copies). -/
inductive Origin where
  | top (i : Nat)
  | child (i j : Nat)
  | gchild (i j k : Nat)
deriving DecidableEq, Repr

/-! ### HierarchyFlattener (`__extract`) -/

/-- The fixed cardinal attribute set of `__extract`
(`atL = ['altcode', 'chain', 'ent', 'model', 'resname', 'resnum', 'said', 'seq']`). -/
def cardinalAtL : List String :=
  ["altcode", "chain", "ent", "model", "resname", "resnum", "said", "seq"]

/-- `d.update({k: msgD[k] for k in atL if k in msgD})`: overlay onto `d`
those keys of `ks` that are present in `msgD`, in the order of `ks`. -/
def addCardinals (msgD : Row) : List String → Row → Row
  | [], d => d
  | k :: ks, d =>
    addCardinals msgD ks (match dlookup msgD k with
      | some v => dinsert d k v
      | none => d)

/-- The row built for a child element: a copy of its own attributes
(`d = {k: ch.attrib[k] for k in ch.attrib}`) overlaid with the parent's
cardinal attributes when the parent's tag is `ModelledSubgroup`
(`msgD = el.attrib if el.tag == 'ModelledSubgroup' else {}`). -/
def childRow (elTag : String) (elAttrib chAttrib : Row) : Row :=
  let msgD := if elTag = "ModelledSubgroup" then elAttrib else []
  addCardinals msgD cardinalAtL chAttrib

/-- Entries appended for the grandchildren of child `j` of element `i`:
each grandchild's attribute dict verbatim (`rD.setdefault(gch.tag, []).append(gch.attrib)`). -/
def gchEntries (i j : Nat) (gs : List XmlNode3) : List (String × Origin × Row) :=
  idxMap (fun k g => (g.tag, Origin.gchild i j k, g.attrib)) 0 gs

/-- Entries appended while visiting child `j` of element `i`: the child's
merged row, then its grandchildren's rows. -/
def chEntry (i j : Nat) (elTag : String) (elAttrib : Row) (ch : XmlNode2) :
    List (String × Origin × Row) :=
  (ch.tag, Origin.child i j, childRow elTag elAttrib ch.attrib) :: gchEntries i j ch.children

/-- Entries appended while visiting top-level element `i`: its own
attribute dict verbatim, then each child's entries in order. -/
def elEntriesO (i : Nat) (el : XmlNode1) : List (String × Origin × Row) :=
  (el.tag, Origin.top i, el.attrib) ::
    (idxMap (fun j ch => chEntry i j el.tag el.attrib ch) 0 el.children).flatten

/-- All `(tag, origin, row)` entries of `__extract`'s traversal, in
append order. -/
def entriesO (t : XmlTree) : List (String × Origin × Row) :=
  (idxMap (fun i el => elEntriesO i el) 0 t.elements).flatten

/-- `rD.setdefault(tag, []).append(row)`: append the row to the tag's
table, creating the table at the end of the dict if the tag is new. -/
def addEntry : List (String × List Row) → String → Row → List (String × List Row)
  | [], tg, r => [(tg, [r])]
  | p :: ps, tg, r => if p.1 = tg then (p.1, p.2 ++ [r]) :: ps else p :: addEntry ps tg r

/-- Group traversal entries into the `rD` dict (tag → ordered row table). -/
def groupByTag (es : List (String × Row)) : List (String × List Row) :=
  es.foldl (fun acc e => addEntry acc e.1 e.2) []

/-- `__extract`: the flattened data, organized by category, with rows in
document order. -/
def extract (t : XmlTree) : List (String × List Row) :=
  groupByTag ((entriesO t).map (fun e => (e.1, e.2.2)))

/-! ### CategoryBuilder (`__buildCif`, per-category loop) -/

/-- `if key in rowD: rowD[key] = str(rowD[key]).strip()` — the in-place
whitespace trim applied to the `icode` and `altcode` columns. -/
def trimKey (key : String) (r : Row) : Row :=
  match dlookup r key with
  | some v => dinsert r key (Val.str (pyStrip (pyStr v)))
  | none => r

/-- Per-row normalization of `__buildCif` (in source order): inject the
1-based ordinal when the category's registered attribute list has an
`ordinal` column, then strip whitespace from `icode` and `altcode` values
after `str()` conversion.  These writes go to the row dict in place. -/
def normalizeRow (hasOrd : Bool) (ii : Nat) (r : Row) : Row :=
  trimKey "altcode" (trimKey "icode"
    (if hasOrd then dinsert r "ordinal" (Val.nat ii) else r))

/-- `for ii, rowD in enumerate(rowList, 1)` applying `normalizeRow`. -/
def normalizeRows (hasOrd : Bool) : Nat → List Row → List Row
  | _, [] => []
  | ii, r :: rs => normalizeRow hasOrd ii r :: normalizeRows hasOrd (ii + 1) rs

/-- `if acc.contains k then acc else acc ++ [k]`: add one key to the
running attribute set (the embedding fixes first-encounter order for
Python's unordered `set`; every property proved below is insensitive to
this order). -/
def addKey (acc : List String) (k : String) : List String :=
  if k ∈ acc then acc else acc ++ [k]

/-- Add all keys of one row to the running attribute set. -/
def addKeys : List String → List String → List String
  | acc, [] => acc
  | acc, k :: ks => addKeys (addKey acc k) ks

/-- `atS.update(rowD.keys())` folded over the row list. -/
def unionKeysAux : List String → List Row → List String
  | acc, [] => acc
  | acc, r :: rs => unionKeysAux (addKeys acc (rowKeys r)) rs

/-- The unique attribute content across the row list. -/
def unionKeys (rows : List Row) : List String := unionKeysAux [] rows

/-- `sD = {ky: self.__atOrdD[ky] for ky in attributeNameList}`: resolve
every attribute name to its rank, raising a `KeyError` when a name has no
registered rank. -/
def ranksOf (atOrdD : List (String × Nat)) : List String → Except String (List (String × Nat))
  | [] => Except.ok []
  | k :: ks =>
    match dlookup atOrdD k with
    | none => Except.error ("KeyError: " ++ k)
    | some r =>
      match ranksOf atOrdD ks with
      | Except.error e => Except.error e
      | Except.ok ps => Except.ok ((k, r) :: ps)

/-- Insert a pair into a rank-sorted list, after all pairs of smaller or
equal rank (this makes the sort stable, like Python's `sorted`). -/
def insertPair (p : String × Nat) : List (String × Nat) → List (String × Nat)
  | [] => [p]
  | q :: qs => if q.2 ≤ p.2 then q :: insertPair p qs else p :: q :: qs

/-- Stable insertion sort by rank. -/
def sortPairsAux : List (String × Nat) → List (String × Nat) → List (String × Nat)
  | [], acc => acc
  | p :: ps, acc => sortPairsAux ps (insertPair p acc)

/-- `sorted(sD.items(), key=operator.itemgetter(1))`. -/
def sortPairs (l : List (String × Nat)) : List (String × Nat) := sortPairsAux l []

/-- `mmcif.api.DataCategory`, modelled per the spec's container model: a
name, an ordered column list, and the row data. -/
structure DataCategory where
  name : String
  attributeNameList : List String
  rowList : List Row
deriving DecidableEq, Repr

/-- `mmcif.api.PdbxContainers.DataContainer`: the named output container. -/
structure DataContainer where
  name : String
  categories : List DataCategory
deriving DecidableEq, Repr

/-- One iteration of `__buildCif`'s category loop: skip when the row list
is empty; look up `self.__attribD[catName]` (a `KeyError` when the
category is not registered); skip when the registered attribute list is
empty or the tag is the literal `programs`; otherwise normalize the rows,
collect the attribute set, resolve ranks (a `KeyError` on an unknown
name), sort, and emit the category. -/
def buildCat (attribD : List (String × List String)) (atOrdD : List (String × Nat))
    (catName : String) (rows : List Row) : Except String (Option DataCategory) :=
  if rows = [] then Except.ok none
  else
    match dlookup attribD catName with
    | none => Except.error ("KeyError: " ++ catName)
    | some atList =>
      if atList = [] ∨ catName = "programs" then Except.ok none
      else
        match ranksOf atOrdD (unionKeys (normalizeRows (decide ("ordinal" ∈ atList)) 1 rows)) with
        | Except.error e => Except.error e
        | Except.ok pairs =>
          Except.ok (some
            { name := catName
              attributeNameList := (sortPairs pairs).map (fun p => p.1)
              rowList := normalizeRows (decide ("ordinal" ∈ atList)) 1 rows })

/-- The whole category loop of `__buildCif` over the `rD` dict, in
insertion order; a raised `KeyError` aborts the build. -/
def buildCats (attribD : List (String × List String)) (atOrdD : List (String × Nat)) :
    List (String × List Row) → Except String (List DataCategory)
  | [] => Except.ok []
  | p :: rest =>
    match buildCat attribD atOrdD p.1 p.2 with
    | Except.error e => Except.error e
    | Except.ok none => buildCats attribD atOrdD rest
    | Except.ok (some c) =>
      match buildCats attribD atOrdD rest with
      | Except.error e => Except.error e
      | Except.ok cs => Except.ok (c :: cs)

/-! ### Schema renaming pass -/

/-- `catObj.renameAttributes(mapD)` followed by `catObj.setName(...)`,
modelled per the spec's container semantics: the attribute list and the
row keys are renamed through the schema map keyed by the category's
current (original) name, then the category name is replaced. -/
def renameCat (sm : SchemaMap) (c : DataCategory) : DataCategory :=
  { name := mapCatName sm c.name
    attributeNameList := c.attributeNameList.map (fun a => mapAtName sm c.name a)
    rowList := c.rowList.map (fun r => r.map (fun p => (mapAtName sm c.name p.1, p.2))) }

/-- `curContainer.getObj(catName)` resolved and renamed in place: rename
the first category whose current name matches (a no-match is impossible
for containers built by `buildCats`, whose names are distinct). -/
def renameFirst (sm : SchemaMap) (n : String) : List DataCategory → List DataCategory
  | [] => []
  | c :: cs => if c.name = n then renameCat sm c :: cs else c :: renameFirst sm n cs

/-- `for catName in curContainer.getObjNameList(): ...` — the name list is
snapshot before the loop, each iteration renames the first category whose
current name matches. -/
def renameLoop (sm : SchemaMap) : List String → List DataCategory → List DataCategory
  | [], cs => cs
  | n :: ns, cs => renameLoop sm ns (renameFirst sm n cs)

/-- The schema renaming pass of `__buildCif`. -/
def renamePass (sm : SchemaMap) (cats : List DataCategory) : List DataCategory :=
  renameLoop sm (cats.map (fun c => c.name)) cats

/-! ### ProvenanceResolver and container assembly -/

/-- Decode one `properties` value: split on commas, strip each token,
translate through the decode table with identity fallback, rejoin. -/
def decodeProps (atMap : List (String × String)) (s : String) : String :=
  joinComma (((splitComma s).map pyStrip).map (decodeTok atMap))

/-- `catObj.setValue(",".flatten(nL), 'properties', iRow)` on one row:
replace the string value at the `properties` key (rows lacking a string
there are left unchanged). -/
def provRow (atMap : List (String × String)) (r : Row) : Row :=
  match dlookup r "properties" with
  | some (Val.str s) => dinsert r "properties" (Val.str (decodeProps atMap s))
  | _ => r

/-- Apply the provenance decode to the rows of the first category named
`program` (the object `getObj('program')` returns). -/
def mutFirstProgram (atMap : List (String × String)) : List DataCategory → List DataCategory
  | [] => []
  | c :: cs =>
    if c.name = "program" then
      { c with rowList := c.rowList.map (provRow atMap) } :: cs
    else c :: mutFirstProgram atMap cs

/-- The tail of `__buildCif`: fetch `getObj('program')`; if it exists and
has a `properties` column, decode the provenance tokens and return the
container (`return [curContainer]`).  Otherwise the function falls off the
end of the `if` block and implicitly returns `None` — which is why the
result is an `Option`. -/
def provResolve (atMap : List (String × String)) (cats : List DataCategory) :
    Option DataContainer :=
  match cats.find? (fun c => c.name = "program") with
  | none => none
  | some c0 =>
    if "properties" ∈ c0.attributeNameList then
      some { name := "vrpt", categories := mutFirstProgram atMap cats }
    else none

/-- `__buildCif` end to end: build the categories (with the default block
name `vrpt`), rename them, resolve provenance. -/
def buildCif (attribD : List (String × List String)) (atOrdD : List (String × Nat))
    (sm : SchemaMap) (atMap : List (String × String)) (rd : List (String × List Row)) :
    Except String (Option DataContainer) :=
  match buildCats attribD atOrdD rd with
  | Except.error e => Except.error e
  | Except.ok cats => Except.ok (provResolve atMap (renamePass sm cats))

/-- `read`: extract the parsed tree and build the container.  Parsing
(`__parse`, including the literal `.gz` suffix detection) is the external
`DocumentParser`; the embedding starts from the parsed tree. -/
def read (attribD : List (String × List String)) (atOrdD : List (String × Nat))
    (sm : SchemaMap) (atMap : List (String × String)) (t : XmlTree) :
    Except String (Option DataContainer) :=
  buildCif attribD atOrdD sm atMap (extract t)

/-! ### Side effects of `read` on the parsed tree

`__extract` appends `el.attrib` (top level) and `gch.attrib` (grandchild
level) to the row tables *by reference*, while child rows are fresh dict
copies (`d = {k: ch.attrib[k] for k in ch.attrib}`).  The per-row writes
of `__buildCif` (`rowD['ordinal'] = ii`, `rowD['icode'] = ...`,
`rowD['altcode'] = ...`) therefore mutate the tree's own attribute dicts
at the top and grandchild levels.  `treeAfterRead` is the embedding of
that side effect: the state of the tree after a `read` call that ran the
category loop to completion. -/

/-- 1-based position of the entry with origin `o` among the entries that
share its tag, counting in traversal order (this is the `ii` that
`enumerate(rowList, 1)` assigns to the aliased row). -/
def tagPosAux (tg : String) (o : Origin) : List (String × Origin × Row) → Nat → Nat
  | [], cnt => cnt
  | e :: es, cnt =>
    if e.2.1 = o then cnt + 1
    else tagPosAux tg o es (if e.1 = tg then cnt + 1 else cnt)

/-- 1-based row position of the node at origin `o` (tag `tg`) within its
category's row table. -/
def tagPos (t : XmlTree) (tg : String) (o : Origin) : Nat :=
  tagPosAux tg o (entriesO t) 0

/-- The registered attribute list of a category that passes the skip
guard of the category loop (`None` when the loop `continue`s before
mutating any row; an unregistered category raises before mutating). -/
def emitAttrs (attribD : List (String × List String)) (tg : String) : Option (List String) :=
  match dlookup attribD tg with
  | none => none
  | some l => if l = [] ∨ tg = "programs" then none else some l

/-- The final state of one aliased attribute dict: unchanged if its
category was skipped, otherwise rewritten by the row normalization. -/
def mutNode (attribD : List (String × List String)) (t : XmlTree) (tg : String)
    (o : Origin) (a : Row) : Row :=
  match emitAttrs attribD tg with
  | none => a
  | some l => normalizeRow (decide ("ordinal" ∈ l)) (tagPos t tg o) a

/-- The parsed tree after `read` has completed: top-level and grandchild
attribute dicts reflect the in-place row mutations (they were appended to
the row tables by reference), child attribute dicts are untouched (their
rows were copies). -/
def treeAfterRead (attribD : List (String × List String)) (t : XmlTree) : XmlTree :=
  ⟨idxMap (fun i el =>
    { tag := el.tag
      attrib := mutNode attribD t el.tag (Origin.top i) el.attrib
      children := idxMap (fun j ch =>
        { tag := ch.tag
          attrib := ch.attrib
          children := idxMap (fun k gch =>
            { tag := gch.tag
              attrib := mutNode attribD t gch.tag (Origin.gchild i j k) gch.attrib }) 0 ch.children
          : XmlNode2 }) 0 el.children
      : XmlNode1 }) 0 t.elements⟩

/-! ### Auxiliary lemmas: dict operations -/

theorem dlookup_dinsert_self {α : Type} (d : List (String × α)) (k : String) (v : α) :
    dlookup (dinsert d k v) k = some v := by
  induction d with
  | nil => simp [dinsert, dlookup]
  | cons p ps ih =>
    by_cases h : p.1 = k
    · simp [dinsert, h, dlookup]
    · simp [dinsert, h, dlookup, ih]

theorem dlookup_dinsert_ne {α : Type} (d : List (String × α)) (k k' : String) (v : α)
    (h : k' ≠ k) : dlookup (dinsert d k v) k' = dlookup d k' := by
  have hkk : ¬k = k' := fun hc => h hc.symm
  induction d with
  | nil => simp [dinsert, dlookup, hkk]
  | cons p ps ih =>
    obtain ⟨a, b⟩ := p
    by_cases hp : a = k
    · subst hp
      simp [dinsert, dlookup, hkk]
    · simp [dinsert, hp, dlookup, ih]

theorem mem_rowKeys_dinsert (r : Row) (k k' : String) (v : Val) (h : k' ∈ rowKeys r) :
    k' ∈ rowKeys (dinsert r k v) := by
  induction r with
  | nil => simp [rowKeys] at h
  | cons p ps ih =>
    obtain ⟨a, b⟩ := p
    simp only [rowKeys, List.map_cons, List.mem_cons] at h
    by_cases hp : a = k
    · subst hp
      simpa [dinsert, rowKeys] using h
    · rcases h with h | h
      · simp [dinsert, hp, rowKeys, h]
      · have hmem := ih (by simpa [rowKeys] using h)
        simp only [dinsert, hp, if_false, rowKeys, List.map_cons, List.mem_cons]
        right
        simpa [rowKeys] using hmem

theorem dlookup_trimKey_ne (key : String) (r : Row) (k : String) (h : k ≠ key) :
    dlookup (trimKey key r) k = dlookup r k := by
  unfold trimKey
  cases hv : dlookup r key with
  | none => rfl
  | some v => exact dlookup_dinsert_ne r key k _ h

theorem mem_rowKeys_trimKey (key : String) (r : Row) (k : String) (h : k ∈ rowKeys r) :
    k ∈ rowKeys (trimKey key r) := by
  unfold trimKey
  cases hv : dlookup r key with
  | none => exact h
  | some v => exact mem_rowKeys_dinsert r key k _ h

/-! ### Auxiliary lemmas: row normalization -/

theorem normalizeRow_ordinal (ii : Nat) (r : Row) :
    dlookup (normalizeRow true ii r) "ordinal" = some (Val.nat ii) := by
  unfold normalizeRow
  rw [dlookup_trimKey_ne _ _ _ (by decide), dlookup_trimKey_ne _ _ _ (by decide)]
  simpa using dlookup_dinsert_self r "ordinal" (Val.nat ii)

theorem mem_rowKeys_normalizeRow (b : Bool) (ii : Nat) (r : Row) (k : String)
    (h : k ∈ rowKeys r) : k ∈ rowKeys (normalizeRow b ii r) := by
  unfold normalizeRow
  apply mem_rowKeys_trimKey
  apply mem_rowKeys_trimKey
  cases b with
  | false => simpa using h
  | true => simpa using mem_rowKeys_dinsert r "ordinal" k _ h

theorem normalizeRows_getElem? (b : Bool) (rows : List Row) (st i : Nat) :
    (normalizeRows b st rows)[i]? = (rows[i]?).map (normalizeRow b (st + i)) := by
  induction rows generalizing st i with
  | nil => simp [normalizeRows]
  | cons r rs ih =>
    cases i with
    | zero => simp [normalizeRows]
    | succ n =>
      simp only [normalizeRows, List.getElem?_cons_succ]
      have harith : st + (n + 1) = st + 1 + n := by omega
      rw [harith]
      exact ih (st + 1) n

theorem mem_normalizeRows (b : Bool) (rows : List Row) (r : Row) (h : r ∈ rows) :
    ∀ st, ∃ ii, normalizeRow b ii r ∈ normalizeRows b st rows := by
  induction rows with
  | nil => simp at h
  | cons q qs ih =>
    intro st
    rcases List.mem_cons.1 h with h' | h'
    · exact ⟨st, by simp [normalizeRows, h']⟩
    · obtain ⟨ii, hii⟩ := ih h' (st + 1)
      exact ⟨ii, List.mem_cons_of_mem _ hii⟩

/-! ### Auxiliary lemmas: the attribute set and rank resolution -/

theorem mem_addKey_of_mem (acc : List String) (k x : String) (h : x ∈ acc) :
    x ∈ addKey acc k := by
  unfold addKey
  by_cases hk : k ∈ acc
  · simpa [hk] using h
  · simp [hk]
    exact Or.inl h

theorem mem_addKey_self (acc : List String) (k : String) : k ∈ addKey acc k := by
  unfold addKey
  by_cases hk : k ∈ acc
  · simp [hk]
  · simp [hk]

theorem mem_addKeys_of_mem (ks acc : List String) (x : String) (h : x ∈ acc) :
    x ∈ addKeys acc ks := by
  induction ks generalizing acc with
  | nil => simpa [addKeys] using h
  | cons k ks ih => exact ih (addKey acc k) (mem_addKey_of_mem acc k x h)

theorem mem_addKeys_of_mem_keys (ks acc : List String) (x : String) (h : x ∈ ks) :
    x ∈ addKeys acc ks := by
  induction ks generalizing acc with
  | nil => simp at h
  | cons k ks ih =>
    rcases List.mem_cons.1 h with h' | h'
    · subst h'
      exact mem_addKeys_of_mem ks (addKey acc x) x (mem_addKey_self acc x)
    · exact ih (addKey acc k) h'

theorem mem_unionKeysAux_of_mem (rows : List Row) (acc : List String) (x : String)
    (h : x ∈ acc) : x ∈ unionKeysAux acc rows := by
  induction rows generalizing acc with
  | nil => simpa [unionKeysAux] using h
  | cons r rs ih => exact ih _ (mem_addKeys_of_mem (rowKeys r) acc x h)

theorem mem_unionKeysAux (rows : List Row) (acc : List String) (r : Row) (x : String)
    (hr : r ∈ rows) (hx : x ∈ rowKeys r) : x ∈ unionKeysAux acc rows := by
  induction rows generalizing acc with
  | nil => simp at hr
  | cons q qs ih =>
    rcases List.mem_cons.1 hr with h' | h'
    · subst h'
      exact mem_unionKeysAux_of_mem qs _ x (mem_addKeys_of_mem_keys (rowKeys r) acc x hx)
    · exact ih _ h'

theorem mem_unionKeys (rows : List Row) (r : Row) (x : String)
    (hr : r ∈ rows) (hx : x ∈ rowKeys r) : x ∈ unionKeys rows :=
  mem_unionKeysAux rows [] r x hr hx

theorem ranksOf_mem (atOrdD : List (String × Nat)) (ks : List String)
    (ps : List (String × Nat)) (h : ranksOf atOrdD ks = Except.ok ps) :
    ∀ q ∈ ps, dlookup atOrdD q.1 = some q.2 := by
  induction ks generalizing ps with
  | nil =>
    unfold ranksOf at h
    cases h
    simp
  | cons k ks ih =>
    unfold ranksOf at h
    cases hl : dlookup atOrdD k with
    | none => rw [hl] at h; cases h
    | some r =>
      rw [hl] at h
      cases hr : ranksOf atOrdD ks with
      | error e => rw [hr] at h; cases h
      | ok ps' =>
        rw [hr] at h
        cases h
        intro q hq
        rcases List.mem_cons.1 hq with h' | h'
        · subst h'; exact hl
        · exact ih ps' hr q h'

theorem ranksOf_error_of_missing (atOrdD : List (String × Nat)) (ks : List String)
    (k : String) (hk : k ∈ ks) (hmiss : dlookup atOrdD k = none) :
    ∃ e, ranksOf atOrdD ks = Except.error e := by
  induction ks with
  | nil => simp at hk
  | cons k' ks ih =>
    unfold ranksOf
    rcases List.mem_cons.1 hk with h' | h'
    · subst h'
      rw [hmiss]
      exact ⟨_, rfl⟩
    · cases hl : dlookup atOrdD k' with
      | none => exact ⟨_, rfl⟩
      | some r =>
        obtain ⟨e, he⟩ := ih h'
        rw [he]
        exact ⟨e, rfl⟩

/-! ### Auxiliary lemmas: the stable rank sort -/

theorem mem_insertPair (p q : String × Nat) (l : List (String × Nat)) :
    q ∈ insertPair p l ↔ q = p ∨ q ∈ l := by
  induction l with
  | nil => simp [insertPair]
  | cons x xs ih =>
    unfold insertPair
    by_cases h : x.2 ≤ p.2
    · rw [if_pos h]
      simp only [List.mem_cons, ih]
      tauto
    · rw [if_neg h]
      simp only [List.mem_cons]

theorem pairwise_insertPair (p : String × Nat) (l : List (String × Nat))
    (h : l.Pairwise (fun a b => a.2 ≤ b.2)) :
    (insertPair p l).Pairwise (fun a b => a.2 ≤ b.2) := by
  induction l with
  | nil => simp [insertPair]
  | cons x xs ih =>
    rw [List.pairwise_cons] at h
    unfold insertPair
    by_cases hx : x.2 ≤ p.2
    · rw [if_pos hx, List.pairwise_cons]
      refine ⟨?_, ih h.2⟩
      intro q hq
      rcases (mem_insertPair p q xs).1 hq with h' | h'
      · subst h'; exact hx
      · exact h.1 q h'
    · rw [if_neg hx, List.pairwise_cons]
      have hpx : p.2 ≤ x.2 := Nat.le_of_not_le hx
      refine ⟨?_, List.pairwise_cons.2 h⟩
      intro q hq
      rcases List.mem_cons.1 hq with h' | h'
      · subst h'; exact hpx
      · exact Nat.le_trans hpx (h.1 q h')

theorem mem_sortPairsAux (l acc : List (String × Nat)) (q : String × Nat) :
    q ∈ sortPairsAux l acc ↔ q ∈ l ∨ q ∈ acc := by
  induction l generalizing acc with
  | nil => simp [sortPairsAux]
  | cons p ps ih =>
    unfold sortPairsAux
    rw [ih (insertPair p acc)]
    simp [mem_insertPair]
    tauto

theorem pairwise_sortPairsAux (l acc : List (String × Nat))
    (h : acc.Pairwise (fun a b => a.2 ≤ b.2)) :
    (sortPairsAux l acc).Pairwise (fun a b => a.2 ≤ b.2) := by
  induction l generalizing acc with
  | nil => simpa [sortPairsAux] using h
  | cons p ps ih => exact ih (insertPair p acc) (pairwise_insertPair p acc h)

theorem mem_sortPairs (l : List (String × Nat)) (q : String × Nat) :
    q ∈ sortPairs l ↔ q ∈ l := by
  unfold sortPairs
  rw [mem_sortPairsAux]
  simp

theorem pairwise_sortPairs (l : List (String × Nat)) :
    (sortPairs l).Pairwise (fun a b => a.2 ≤ b.2) :=
  pairwise_sortPairsAux l [] (by simp)

theorem sublist_pair_of_pairwise (l : List (String × Nat)) (a b : String × Nat)
    (hp : l.Pairwise (fun x y => x.2 ≤ y.2)) (ha : a ∈ l) (hb : b ∈ l)
    (hlt : a.2 < b.2) : [a, b].Sublist l := by
  induction l with
  | nil => simp at ha
  | cons x xs ih =>
    rw [List.pairwise_cons] at hp
    rcases List.mem_cons.1 ha with ha' | ha'
    · subst ha'
      have hbxs : b ∈ xs := by
        rcases List.mem_cons.1 hb with hb' | hb'
        · subst hb'
          exact absurd hlt (by omega)
        · exact hb'
      exact List.Sublist.cons₂ a (List.singleton_sublist.2 hbxs)
    · rcases List.mem_cons.1 hb with hb' | hb'
      · subst hb'
        have hxa : b.2 ≤ a.2 := hp.1 a ha'
        exact absurd hlt (by omega)
      · exact List.Sublist.cons x (ih hp.2 ha' hb')

/-! ### Auxiliary lemmas: the category loop -/

theorem buildCat_ok_some (attribD : List (String × List String)) (atOrdD : List (String × Nat))
    (n : String) (rows : List Row) (c : DataCategory)
    (h : buildCat attribD atOrdD n rows = Except.ok (some c)) :
    ∃ atList pairs, dlookup attribD n = some atList ∧
      ranksOf atOrdD (unionKeys (normalizeRows (decide ("ordinal" ∈ atList)) 1 rows))
        = Except.ok pairs ∧
      c = { name := n
            attributeNameList := (sortPairs pairs).map (fun p => p.1)
            rowList := normalizeRows (decide ("ordinal" ∈ atList)) 1 rows } := by
  unfold buildCat at h
  by_cases hrows : rows = []
  · rw [if_pos hrows] at h
    cases h
  · rw [if_neg hrows] at h
    cases hl : dlookup attribD n with
    | none => rw [hl] at h; dsimp only at h; cases h
    | some atList =>
      rw [hl] at h
      dsimp only at h
      by_cases hg : atList = [] ∨ n = "programs"
      · rw [if_pos hg] at h
        cases h
      · rw [if_neg hg] at h
        cases hr : ranksOf atOrdD (unionKeys (normalizeRows (decide ("ordinal" ∈ atList)) 1 rows)) with
        | error e => rw [hr] at h; dsimp only at h; cases h
        | ok pairs =>
          rw [hr] at h
          dsimp only at h
          cases h
          exact ⟨atList, pairs, rfl, hr, rfl⟩

theorem buildCat_error_of_missing_rank (attribD : List (String × List String))
    (atOrdD : List (String × Nat)) (n : String) (rows : List Row) (atList : List String)
    (r : Row) (k : String) (hr : r ∈ rows) (hreg : dlookup attribD n = some atList)
    (hne : atList ≠ []) (hnp : n ≠ "programs") (hk : k ∈ rowKeys r)
    (hmiss : dlookup atOrdD k = none) :
    ∃ e, buildCat attribD atOrdD n rows = Except.error e := by
  have hrows : rows ≠ [] := by
    intro hc
    rw [hc] at hr
    simp at hr
  obtain ⟨ii, hmem⟩ := mem_normalizeRows (decide ("ordinal" ∈ atList)) rows r hr 1
  have hku : k ∈ unionKeys (normalizeRows (decide ("ordinal" ∈ atList)) 1 rows) :=
    mem_unionKeys _ _ k hmem (mem_rowKeys_normalizeRow _ ii r k hk)
  obtain ⟨e, he⟩ := ranksOf_error_of_missing atOrdD _ k hku hmiss
  refine ⟨e, ?_⟩
  unfold buildCat
  rw [if_neg hrows, hreg]
  dsimp only
  rw [if_neg (by tauto), he]

theorem buildCats_error_of_mem (attribD : List (String × List String))
    (atOrdD : List (String × Nat)) (rd : List (String × List Row)) (n : String)
    (rows : List Row) (hmem : (n, rows) ∈ rd)
    (herr : ∃ e, buildCat attribD atOrdD n rows = Except.error e) :
    ∃ e, buildCats attribD atOrdD rd = Except.error e := by
  induction rd with
  | nil => simp at hmem
  | cons p rest ih =>
    rcases List.mem_cons.1 hmem with h' | h'
    · obtain ⟨e, he⟩ := herr
      rw [← h'] at *
      refine ⟨e, ?_⟩
      unfold buildCats
      rw [he]
    · obtain ⟨e, he⟩ := ih h'
      unfold buildCats
      cases hc : buildCat attribD atOrdD p.1 p.2 with
      | error e' => exact ⟨e', rfl⟩
      | ok oc =>
        cases oc with
        | none => exact ⟨e, by rw [he]⟩
        | some c => rw [he]; exact ⟨e, rfl⟩

theorem buildCif_error_of_cats (attribD : List (String × List String))
    (atOrdD : List (String × Nat)) (sm : SchemaMap) (atMap : List (String × String))
    (rd : List (String × List Row)) (e : String)
    (h : buildCats attribD atOrdD rd = Except.error e) :
    buildCif attribD atOrdD sm atMap rd = Except.error e := by
  unfold buildCif
  rw [h]

/-! ### Auxiliary lemmas: cardinal-attribute propagation -/

theorem addCardinals_empty (ks : List String) (d : Row) : addCardinals [] ks d = d := by
  induction ks with
  | nil => rfl
  | cons k ks ih => simpa [addCardinals, dlookup] using ih

theorem dlookup_addCardinals_not_mem (msgD : Row) (ks : List String) (d : Row) (k : String)
    (hk : k ∉ ks) : dlookup (addCardinals msgD ks d) k = dlookup d k := by
  induction ks generalizing d with
  | nil => rfl
  | cons k' ks ih =>
    have hne : k ≠ k' := fun hc => hk (by simp [hc])
    have hks : k ∉ ks := fun hc => hk (by simp [hc])
    unfold addCardinals
    cases hv : dlookup msgD k' with
    | none => exact ih d hks
    | some v => rw [ih _ hks, dlookup_dinsert_ne _ _ _ _ hne]

theorem dlookup_addCardinals_mem (msgD : Row) (ks : List String) (d : Row) (k : String)
    (hnd : ks.Nodup) (hk : k ∈ ks) :
    dlookup (addCardinals msgD ks d) k =
      (match dlookup msgD k with
       | some v => some v
       | none => dlookup d k) := by
  induction ks generalizing d with
  | nil => simp at hk
  | cons k' ks ih =>
    rw [List.nodup_cons] at hnd
    rcases List.mem_cons.1 hk with h' | h'
    · subst h'
      unfold addCardinals
      cases hv : dlookup msgD k with
      | none => rw [dlookup_addCardinals_not_mem msgD ks d k hnd.1]
      | some v =>
        rw [dlookup_addCardinals_not_mem msgD ks _ k hnd.1, dlookup_dinsert_self]
    · unfold addCardinals
      cases hv : dlookup msgD k' with
      | none => dsimp only; exact ih d hnd.2 h'
      | some v =>
        dsimp only
        have hne : k ≠ k' := fun hc => hnd.1 (hc ▸ h')
        rw [ih _ hnd.2 h', dlookup_dinsert_ne _ _ _ _ hne]

/-! ### Auxiliary lemmas: indexed traversal -/

theorem idxMap_getElem? {α β : Type} (f : Nat → α → β) (n : Nat) (l : List α) (i : Nat) :
    (idxMap f n l)[i]? = (l[i]?).map (f (n + i)) := by
  induction l generalizing n i with
  | nil => simp [idxMap]
  | cons a as ih =>
    cases i with
    | zero => simp [idxMap]
    | succ m =>
      simp only [idxMap, List.getElem?_cons_succ]
      have harith : n + (m + 1) = n + 1 + m := by omega
      rw [harith]
      exact ih (n + 1) m

theorem mem_idxMap_of_getElem? {α β : Type} (f : Nat → α → β) (n : Nat) (l : List α)
    (i : Nat) (a : α) (h : l[i]? = some a) : f (n + i) a ∈ idxMap f n l := by
  have h2 : (idxMap f n l)[i]? = some (f (n + i) a) := by
    rw [idxMap_getElem?, h]
    rfl
  exact List.getElem?_mem h2

/-! ### Auxiliary lemmas: the renaming pass -/

theorem renameCat_name (sm : SchemaMap) (c : DataCategory) :
    (renameCat sm c).name = mapCatName sm c.name := rfl

theorem renameFirst_append (sm : SchemaMap) (n : String) (pre l : List DataCategory)
    (h : ∀ p ∈ pre, p.name ≠ n) :
    renameFirst sm n (pre ++ l) = pre ++ renameFirst sm n l := by
  induction pre with
  | nil => rfl
  | cons q qs ih =>
    simp only [List.cons_append, renameFirst, List.append_eq]
    rw [if_neg (h q (List.mem_cons_self q qs)),
      ih (fun p hp => h p (List.mem_cons_of_mem q hp))]

theorem renameLoop_eq (sm : SchemaMap) (cats : List DataCategory) :
    ∀ pre : List DataCategory,
      (∀ p ∈ pre, ∀ c ∈ cats, mapCatName sm p.name ≠ c.name) →
      (cats.map (fun c => c.name)).Nodup →
      (∀ a ∈ cats, ∀ b ∈ cats, a.name ≠ b.name → mapCatName sm a.name ≠ b.name) →
      renameLoop sm (cats.map (fun c => c.name)) (pre.map (renameCat sm) ++ cats)
        = pre.map (renameCat sm) ++ cats.map (renameCat sm) := by
  induction cats with
  | nil => intro pre _ _ _; simp [renameLoop]
  | cons c cs ih =>
    intro pre hpre hnd hcr
    simp only [List.map_cons, renameLoop]
    simp only [List.map_cons] at hnd
    rw [List.nodup_cons] at hnd
    have hpre2 : ∀ p ∈ pre.map (renameCat sm), p.name ≠ c.name := by
      intro p hp
      obtain ⟨q, hq, rfl⟩ := List.mem_map.1 hp
      rw [renameCat_name]
      exact hpre q hq c (List.mem_cons_self c cs)
    have h1 : renameFirst sm c.name (pre.map (renameCat sm) ++ c :: cs)
        = pre.map (renameCat sm) ++ (renameCat sm c :: cs) := by
      rw [renameFirst_append sm c.name (pre.map (renameCat sm)) (c :: cs) hpre2]
      unfold renameFirst
      rw [if_pos rfl]
    rw [h1]
    have h2 : pre.map (renameCat sm) ++ (renameCat sm c :: cs)
        = (pre ++ [c]).map (renameCat sm) ++ cs := by simp
    rw [h2]
    have hpre' : ∀ p ∈ pre ++ [c], ∀ c' ∈ cs, mapCatName sm p.name ≠ c'.name := by
      intro p hp c' hc'
      rcases List.mem_append.1 hp with h' | h'
      · exact hpre p h' c' (List.mem_cons_of_mem c hc')
      · have hpc : p = c := by simpa using h'
        subst hpc
        have hname : p.name ≠ c'.name := by
          intro hc
          apply hnd.1
          rw [hc]
          exact List.mem_map_of_mem (fun x => x.name) hc'
        exact hcr p (List.mem_cons_self p cs) c' (List.mem_cons_of_mem p hc') hname
    have hcr' : ∀ a ∈ cs, ∀ b ∈ cs, a.name ≠ b.name → mapCatName sm a.name ≠ b.name :=
      fun a ha b hb => hcr a (List.mem_cons_of_mem c ha) b (List.mem_cons_of_mem c hb)
    rw [ih (pre ++ [c]) hpre' hnd.2 hcr']
    simp

theorem renamePass_eq_map (sm : SchemaMap) (cats : List DataCategory)
    (hnd : (cats.map (fun c => c.name)).Nodup)
    (hcr : ∀ a ∈ cats, ∀ b ∈ cats, a.name ≠ b.name → mapCatName sm a.name ≠ b.name) :
    renamePass sm cats = cats.map (renameCat sm) := by
  unfold renamePass
  have h := renameLoop_eq sm cats [] (by intro p hp; simp at hp) hnd hcr
  simpa using h

/-! ### Auxiliary lemmas: traversal membership -/

theorem gch_mem_entriesO (t : XmlTree) (i j k : Nat) (el : XmlNode1) (ch : XmlNode2)
    (gch : XmlNode3) (h1 : t.elements[i]? = some el) (h2 : el.children[j]? = some ch)
    (h3 : ch.children[k]? = some gch) :
    (gch.tag, Origin.gchild i j k, gch.attrib) ∈ entriesO t := by
  unfold entriesO
  rw [List.mem_flatten]
  refine ⟨elEntriesO i el, ?_, ?_⟩
  · have hm := mem_idxMap_of_getElem? (fun i el => elEntriesO i el) 0 t.elements i el h1
    simpa using hm
  · unfold elEntriesO
    apply List.mem_cons_of_mem
    rw [List.mem_flatten]
    refine ⟨chEntry i j el.tag el.attrib ch, ?_, ?_⟩
    · have hm := mem_idxMap_of_getElem? (fun j ch => chEntry i j el.tag el.attrib ch)
        0 el.children j ch h2
      simpa using hm
    · unfold chEntry
      apply List.mem_cons_of_mem
      unfold gchEntries
      have hm := mem_idxMap_of_getElem? (fun k g => (g.tag, Origin.gchild i j k, g.attrib))
        0 ch.children k gch h3
      simpa using hm

/-- `childRow` at a `ModelledSubgroup` parent is the cardinal overlay. -/
theorem childRow_msg (pa ca : Row) :
    childRow "ModelledSubgroup" pa ca = addCardinals pa cardinalAtL ca := by
  unfold childRow
  rw [if_pos rfl]

/-! ### Claim theorems -/

/-- C1: the claim says `read` returns the assembled container even when the
canonical `program` category is absent (or lacks a `properties` column), the
provenance step being a no-op.  The code instead returns `None` in that case:
the `return [curContainer]` statement sits inside the
`if catObj and catObj.hasAttribute('properties')` block of `__buildCif`, so a
document without a `program` category produces no container at all —
evaluated here on a document with a single `sheet` element. -/
theorem c1_read_no_program_returns_none :
    read [("sheet", ["x"])] [("x", 1)] ⟨[], []⟩ []
      ⟨[⟨"sheet", [("x", Val.str "1")], []⟩]⟩ = Except.ok none := by decide

/-- C2 counterexample: the claim says no error is raised when the category has
no registered attribute list, or when the tag is the literal `programs`.  But
`self.__attribD[catName]` is a plain indexing: for a nonempty row list under a
tag that is absent from the attribute map (here `programs` itself), the guard
raises a `KeyError` before the `programs` exclusion is even consulted. -/
theorem c2_unregistered_category_raises :
    buildCat [] [] "programs" [[("a", Val.str "1")]]
      = Except.error "KeyError: programs" := by decide

/-- C2 (amended): a category is skipped (no category emitted, no error) exactly
when the row list is empty, or when the category is registered with an empty
attribute list, or when it is registered and the tag is the literal
`programs`; when the row list is nonempty and the category is not registered
at all, a `KeyError` lookup failure is raised instead of a silent skip. -/
theorem c2_skip_conditions (attribD : List (String × List String))
    (atOrdD : List (String × Nat)) (n : String) (rows : List Row) :
    (buildCat attribD atOrdD n rows = Except.ok none ↔
      rows = [] ∨ ∃ l, dlookup attribD n = some l ∧ (l = [] ∨ n = "programs")) ∧
    (rows ≠ [] → dlookup attribD n = none →
      buildCat attribD atOrdD n rows = Except.error ("KeyError: " ++ n)) := by
  constructor
  · constructor
    · intro h
      by_cases hrows : rows = []
      · exact Or.inl hrows
      · unfold buildCat at h
        rw [if_neg hrows] at h
        cases hl : dlookup attribD n with
        | none => rw [hl] at h; dsimp only at h; cases h
        | some atList =>
          rw [hl] at h
          dsimp only at h
          by_cases hg : atList = [] ∨ n = "programs"
          · exact Or.inr ⟨atList, rfl, hg⟩
          · rw [if_neg hg] at h
            cases hr : ranksOf atOrdD
                (unionKeys (normalizeRows (decide ("ordinal" ∈ atList)) 1 rows)) with
            | error e => rw [hr] at h; dsimp only at h; cases h
            | ok pairs => rw [hr] at h; dsimp only at h; cases h
    · intro h
      rcases h with h | ⟨l, hl, hg⟩
      · unfold buildCat
        rw [if_pos h]
      · unfold buildCat
        by_cases hrows : rows = []
        · rw [if_pos hrows]
        · rw [if_neg hrows, hl]
          dsimp only
          rw [if_pos hg]
  · intro hrows hl
    unfold buildCat
    rw [if_neg hrows, hl]

/-- C2 witness: the amended theorem applied at a nonempty, unregistered
category, yielding the `KeyError`. -/
theorem c2_skip_conditions_witness :
    buildCat [] [] "foo" [[("a", Val.str "1")]] = Except.error "KeyError: foo" :=
  (c2_skip_conditions [] [] "foo" [[("a", Val.str "1")]]).2 (by decide) (by decide)

/-- C4: for a non-skipped category (nonempty rows, registered with a nonempty
attribute list, not the `programs` tag), a column name appearing in one of its
rows with no entry in the attribute order table makes the whole build raise a
lookup error, so no output container is produced. -/
theorem c4_missing_rank_aborts_build (attribD : List (String × List String))
    (atOrdD : List (String × Nat)) (sm : SchemaMap) (atMap : List (String × String))
    (rd : List (String × List Row)) (n : String) (rows : List Row) (atList : List String)
    (r : Row) (k : String) (hmem : (n, rows) ∈ rd) (hr : r ∈ rows)
    (hreg : dlookup attribD n = some atList) (hne : atList ≠ []) (hnp : n ≠ "programs")
    (hk : k ∈ rowKeys r) (hmiss : dlookup atOrdD k = none) :
    ∃ e, buildCif attribD atOrdD sm atMap rd = Except.error e := by
  obtain ⟨e, he⟩ := buildCats_error_of_mem attribD atOrdD rd n rows hmem
    (buildCat_error_of_missing_rank attribD atOrdD n rows atList r k hr hreg hne hnp hk hmiss)
  exact ⟨e, buildCif_error_of_cats attribD atOrdD sm atMap rd e he⟩

/-- C4 witness: a category `cat` with a row whose column `a` has no rank. -/
theorem c4_missing_rank_aborts_build_witness :
    ∃ e, buildCif [("cat", ["a"])] [] ⟨[], []⟩ [] [("cat", [[("a", Val.str "1")]])]
      = Except.error e :=
  c4_missing_rank_aborts_build [("cat", ["a"])] [] ⟨[], []⟩ []
    [("cat", [[("a", Val.str "1")]])] "cat" [[("a", Val.str "1")]] ["a"]
    [("a", Val.str "1")] "a" (by decide) (by decide) (by decide) (by decide)
    (by decide) (by decide) (by decide)

/-- C5: in every emitted category whose registered attribute list contains
`ordinal`, row `i` (0-based, document order) carries ordinal value `i + 1`, so
the ordinal column is exactly the sequence `1..row_count`. -/
theorem c5_ordinal_sequence (attribD : List (String × List String))
    (atOrdD : List (String × Nat)) (n : String) (rows : List Row) (c : DataCategory)
    (l : List String) (i : Nat) (r : Row)
    (h : buildCat attribD atOrdD n rows = Except.ok (some c))
    (hl : dlookup attribD n = some l) (hord : "ordinal" ∈ l)
    (hrow : c.rowList[i]? = some r) :
    dlookup r "ordinal" = some (Val.nat (i + 1)) := by
  obtain ⟨atList, pairs, hl', hrk, hc⟩ := buildCat_ok_some attribD atOrdD n rows c h
  rw [hl] at hl'
  cases hl'
  subst hc
  simp only at hrow
  rw [decide_eq_true hord, normalizeRows_getElem?] at hrow
  obtain ⟨r0, hr0, hr0eq⟩ := Option.map_eq_some'.1 hrow
  rw [← hr0eq, Nat.add_comm 1 i] at *
  exact normalizeRow_ordinal (i + 1) r0

/-- C5 witness: a one-row category with an `ordinal` column gets ordinal 1. -/
theorem c5_ordinal_sequence_witness :
    dlookup [("x", Val.str "v"), ("ordinal", Val.nat 1)] "ordinal" = some (Val.nat 1) :=
  c5_ordinal_sequence [("c", ["ordinal"])] [("x", 5), ("ordinal", 1)] "c"
    [[("x", Val.str "v")]]
    ⟨"c", ["ordinal", "x"], [[("x", Val.str "v"), ("ordinal", Val.nat 1)]]⟩
    ["ordinal"] 0 [("x", Val.str "v"), ("ordinal", Val.nat 1)]
    (by decide) (by decide) (by decide) (by decide)

/-- C6: under a `ModelledSubgroup` (cardinal-attribute-bearing) top-level
element, a child's extracted row is the child's own attributes overlaid with
the cardinal attributes present in the parent's attribute set (pointwise: a
cardinal key present in the parent reads the parent's value, every other key
reads the child's own value); a grandchild's extracted row is its attribute
mapping verbatim. -/
theorem c6_cardinal_overlay (pa ca : Row) (k : String) (v : Val) (t : XmlTree)
    (i j kk : Nat) (el : XmlNode1) (ch : XmlNode2) (gch : XmlNode3) :
    (k ∈ cardinalAtL → dlookup pa k = some v →
      dlookup (childRow "ModelledSubgroup" pa ca) k = some v) ∧
    (k ∉ cardinalAtL ∨ dlookup pa k = none →
      dlookup (childRow "ModelledSubgroup" pa ca) k = dlookup ca k) ∧
    (t.elements[i]? = some el → el.children[j]? = some ch →
      ch.children[kk]? = some gch →
      (gch.tag, Origin.gchild i j kk, gch.attrib) ∈ entriesO t) := by
  refine ⟨?_, ?_, ?_⟩
  · intro hk hv
    rw [childRow_msg, dlookup_addCardinals_mem pa cardinalAtL ca k (by decide) hk, hv]
  · intro h
    rcases h with h | h
    · rw [childRow_msg, dlookup_addCardinals_not_mem pa cardinalAtL ca k h]
    · by_cases hk : k ∈ cardinalAtL
      · rw [childRow_msg, dlookup_addCardinals_mem pa cardinalAtL ca k (by decide) hk, h]
      · rw [childRow_msg, dlookup_addCardinals_not_mem pa cardinalAtL ca k hk]
  · exact gch_mem_entriesO t i j kk el ch gch

/-- C6 witness: child `{y:"2"}` under cardinal parent `{chain:"A"}` reads the
parent's `chain` and its own `y`; a concrete grandchild row appears verbatim. -/
theorem c6_cardinal_overlay_witness :
    dlookup (childRow "ModelledSubgroup" [("chain", Val.str "A")] [("y", Val.str "2")])
        "chain" = some (Val.str "A") ∧
    dlookup (childRow "ModelledSubgroup" [("chain", Val.str "A")] [("y", Val.str "2")])
        "y" = dlookup [("y", Val.str "2")] "y" ∧
    (("G", Origin.gchild 0 0 0, ([("g", Val.str "3")] : Row)) ∈ entriesO
      ⟨[⟨"A", [], [⟨"B", [], [⟨"G", [("g", Val.str "3")]⟩]⟩]⟩]⟩) :=
  ⟨(c6_cardinal_overlay [("chain", Val.str "A")] [("y", Val.str "2")] "chain" (Val.str "A")
      ⟨[]⟩ 0 0 0 ⟨"", [], []⟩ ⟨"", [], []⟩ ⟨"", []⟩).1 (by decide) (by decide),
   (c6_cardinal_overlay [("chain", Val.str "A")] [("y", Val.str "2")] "y" (Val.str "A")
      ⟨[]⟩ 0 0 0 ⟨"", [], []⟩ ⟨"", [], []⟩ ⟨"", []⟩).2.1 (Or.inl (by decide)),
   (c6_cardinal_overlay [] [] "" (Val.str "")
      ⟨[⟨"A", [], [⟨"B", [], [⟨"G", [("g", Val.str "3")]⟩]⟩]⟩]⟩ 0 0 0
      ⟨"A", [], [⟨"B", [], [⟨"G", [("g", Val.str "3")]⟩]⟩]⟩
      ⟨"B", [], [⟨"G", [("g", Val.str "3")]⟩]⟩
      ⟨"G", [("g", Val.str "3")]⟩).2.2 rfl rfl rfl⟩

/-- C7: the identity-fallback laws of the three naming lookups: a category
name absent from the schema map's category table is kept; a
`(category, attribute)` pair absent from the attribute table keeps the
attribute name; a provenance token absent from the decode table is emitted
unchanged.  All three lookups are total functions and never fail. -/
theorem c7_identity_fallback (sm : SchemaMap) (atMap : List (String × String))
    (c a k : String) :
    (dlookup sm.categories c = none → mapCatName sm c = c) ∧
    (dlookupP sm.attributes (c, a) = none → mapAtName sm c a = a) ∧
    (dlookup atMap k = none → decodeTok atMap k = k) := by
  refine ⟨?_, ?_, ?_⟩ <;> intro h <;> simp [mapCatName, mapAtName, decodeTok, h]

/-- C7 witness: the three identity laws at empty tables. -/
theorem c7_identity_fallback_witness :
    mapCatName ⟨[], []⟩ "x" = "x" ∧ mapAtName ⟨[], []⟩ "x" "y" = "y" ∧
      decodeTok [] "z" = "z" :=
  ⟨(c7_identity_fallback ⟨[], []⟩ [] "x" "y" "z").1 rfl,
   (c7_identity_fallback ⟨[], []⟩ [] "x" "y" "z").2.1 rfl,
   (c7_identity_fallback ⟨[], []⟩ [] "x" "y" "z").2.2 rfl⟩

/-- C8: in the renaming pass, each emitted category's columns are translated
through the attribute table keyed by the category's *original* name, before
the category name itself is replaced, and exactly once.  The hypotheses — the
original names are distinct (true of every container built by the category
loop, whose names are dict keys), and the category table does not map one
emitted name onto another emitted category's original name (the canonical-name
collision case the spec leaves open) — pin down `getObj`'s behaviour. -/
theorem c8_rename_keyed_by_original (sm : SchemaMap) (cats : List DataCategory)
    (i : Nat) (c : DataCategory)
    (hnd : (cats.map (fun c => c.name)).Nodup)
    (hcr : ∀ a ∈ cats, ∀ b ∈ cats, a.name ≠ b.name → mapCatName sm a.name ≠ b.name)
    (hc : cats[i]? = some c) :
    (renamePass sm cats)[i]? = some
      { name := mapCatName sm c.name
        attributeNameList := c.attributeNameList.map (fun a => mapAtName sm c.name a)
        rowList := c.rowList.map (fun r => r.map (fun p => (mapAtName sm c.name p.1, p.2))) } := by
  rw [renamePass_eq_map sm cats hnd hcr, List.getElem?_map, hc]
  rfl

/-- C8 witness: the category named `a` is renamed to `b` with its column `x`
translated to `y` through the key `("a", "x")` — the original name. -/
theorem c8_rename_keyed_by_original_witness :
    (renamePass ⟨[("a", "b")], [(("a", "x"), "y")]⟩ [⟨"a", ["x"], []⟩])[0]? =
      some ⟨"b", ["y"], []⟩ :=
  (c8_rename_keyed_by_original ⟨[("a", "b")], [(("a", "x"), "y")]⟩ [⟨"a", ["x"], []⟩]
    0 ⟨"a", ["x"], []⟩ (by decide) (by decide) (by decide)).trans (by decide)

/-- C9: in every emitted category, if two of its columns have ranks `r1 < r2`
in the attribute order table then the first strictly precedes the second in
the category's column list (stated as: the two-element list is a sublist of
the column list). -/
theorem c9_rank_sorted_columns (attribD : List (String × List String))
    (atOrdD : List (String × Nat)) (n : String) (rows : List Row) (c : DataCategory)
    (c1 c2 : String) (r1 r2 : Nat)
    (h : buildCat attribD atOrdD n rows = Except.ok (some c))
    (h1 : c1 ∈ c.attributeNameList) (h2 : c2 ∈ c.attributeNameList)
    (hr1 : dlookup atOrdD c1 = some r1) (hr2 : dlookup atOrdD c2 = some r2)
    (hlt : r1 < r2) : [c1, c2].Sublist c.attributeNameList := by
  obtain ⟨atList, pairs, hl', hrk, hc⟩ := buildCat_ok_some attribD atOrdD n rows c h
  subst hc
  simp only at h1 h2 ⊢
  obtain ⟨p1, hp1, hp1e⟩ := List.mem_map.1 h1
  obtain ⟨p2, hp2, hp2e⟩ := List.mem_map.1 h2
  have hq1 := ranksOf_mem atOrdD _ pairs hrk p1 ((mem_sortPairs pairs p1).1 hp1)
  have hq2 := ranksOf_mem atOrdD _ pairs hrk p2 ((mem_sortPairs pairs p2).1 hp2)
  have hp1snd : p1.2 = r1 := by
    rw [hp1e] at hq1
    rw [hq1] at hr1
    exact Option.some.inj hr1
  have hp2snd : p2.2 = r2 := by
    rw [hp2e] at hq2
    rw [hq2] at hr2
    exact Option.some.inj hr2
  have hsub : [p1, p2].Sublist (sortPairs pairs) :=
    sublist_pair_of_pairwise (sortPairs pairs) p1 p2 (pairwise_sortPairs pairs) hp1 hp2
      (by rw [hp1snd, hp2snd]; exact hlt)
  have hmap := hsub.map (fun p => p.1)
  simpa [hp1e, hp2e] using hmap

/-- C9 witness: columns `x` (rank 2) and `y` (rank 1) of a concrete category
come out in the order `y`, `x`. -/
theorem c9_rank_sorted_columns_witness :
    [("y" : String), "x"].Sublist ["y", "x"] :=
  c9_rank_sorted_columns [("c", ["a"])] [("x", 2), ("y", 1)] "c"
    [[("x", Val.str "1"), ("y", Val.str "2")]]
    ⟨"c", ["y", "x"], [[("x", Val.str "1"), ("y", Val.str "2")]]⟩
    "y" "x" 1 2 (by decide) (by decide) (by decide) (by decide) (by decide)
    (by decide)

/-- C10: cardinal propagation happens exactly for the literal tag
`ModelledSubgroup` — children of every other top-level tag get exactly their
own attributes — with the cardinal set being exactly the eight listed names,
and on a key collision the parent's cardinal value replaces the child's own
value. -/
theorem c10_propagation_exactly_msg (elTag : String) (pa ca : Row) (k : String) (v : Val) :
    (elTag ≠ "ModelledSubgroup" → childRow elTag pa ca = ca) ∧
    (k ∈ cardinalAtL → dlookup pa k = some v →
      dlookup (childRow "ModelledSubgroup" pa ca) k = some v) ∧
    cardinalAtL = ["altcode", "chain", "ent", "model", "resname", "resnum", "said", "seq"] := by
  refine ⟨?_, ?_, rfl⟩
  · intro h
    unfold childRow
    rw [if_neg h, addCardinals_empty]
  · intro hk hv
    rw [childRow_msg, dlookup_addCardinals_mem pa cardinalAtL ca k (by decide) hk, hv]

/-- C10 witness: a non-`ModelledSubgroup` parent propagates nothing; a
colliding `chain` key under `ModelledSubgroup` reads the parent's value. -/
theorem c10_propagation_exactly_msg_witness :
    childRow "Model" [("chain", Val.str "A")] [("y", Val.str "2")] = [("y", Val.str "2")] ∧
    dlookup (childRow "ModelledSubgroup" [("chain", Val.str "A")] [("chain", Val.str "B")])
      "chain" = some (Val.str "A") :=
  ⟨(c10_propagation_exactly_msg "Model" [("chain", Val.str "A")] [("y", Val.str "2")]
      "chain" (Val.str "A")).1 (by decide),
   (c10_propagation_exactly_msg "ModelledSubgroup" [("chain", Val.str "A")]
      [("chain", Val.str "B")] "chain" (Val.str "A")).2.1 (by decide) (by decide)⟩

/-- C3 counterexample: the claim says every element's attribute mapping is
unchanged after `read` completes.  But top-level rows are the tree's own
attribute dicts, and the in-place `icode` trim rewrites them: after a
completed `read` over a document whose single top-level element carries
`icode = " a "`, the element's own mapping holds the trimmed `"a"`. -/
theorem c3_top_level_attrib_mutated :
    read [("t", ["icode"])] [("icode", 1)] ⟨[], []⟩ []
        ⟨[⟨"t", [("icode", Val.str " a ")], []⟩]⟩ = Except.ok none ∧
    treeAfterRead [("t", ["icode"])] ⟨[⟨"t", [("icode", Val.str " a ")], []⟩]⟩
      = ⟨[⟨"t", [("icode", Val.str "a")], []⟩]⟩ ∧
    ([("icode", Val.str "a")] : Row) ≠ [("icode", Val.str " a ")] :=
  ⟨by decide, by decide, by decide⟩

/-- C3 (amended): flattening copies child rows
(`d = {k: ch.attrib[k] for k in ch.attrib}`), so the attribute mappings of
child-level elements are unchanged by `read`; top-level and grandchild rows,
however, alias the tree's own dicts and are mutated in place by the ordinal
injection and whitespace trimming (see the counterexample). -/
theorem c3_child_attribs_preserved (attribD : List (String × List String)) (t : XmlTree)
    (i j : Nat) :
    ((treeAfterRead attribD t).elements[i]?).bind
        (fun el => (el.children[j]?).map (fun ch => ch.attrib))
      = (t.elements[i]?).bind (fun el => (el.children[j]?).map (fun ch => ch.attrib)) := by
  dsimp only [treeAfterRead]
  rw [idxMap_getElem?]
  cases h : t.elements[i]? with
  | none => simp
  | some el =>
    simp only [Option.map_some', Option.some_bind]
    rw [idxMap_getElem?]
    cases h2 : el.children[j]? with
    | none => simp
    | some ch => simp
